import Mathlib

/-!
Verification of the hereditary base-b decomposition package of the
goodstein repository (package `decomposition`, current variant: the
struct-based `Decomposition` with methods `New`, `clean`, `Eval`,
`String`, `LaTeX`, `IncrementBase`, `Decrement`).

Embedding notes.
A Go `Decomposition` is a slice of monomes, least significant first,
where a monome is `coeff * base ^ exponent` and the exponent is itself a
`Decomposition`.  To keep every recursion structural (hence executable
and kernel-reducible) we fuse the slice spine into the inductive type:
`cons c b e rest` is the decomposition whose least significant monome is
`coeff c, base b, exponent e`, followed by the remaining monomes `rest`;
`nil` is the empty decomposition (the number zero).  Go `int` is modelled
as `Int`, Go `*big.Int` as `Int`.

Two Go recursions are not structurally terminating (and genuinely diverge
on malformed inputs that violate the documented invariants):
the digit-extraction recursion `recDecompose` and the borrow loop inside
`Decrement`.  Both are embedded with an explicit fuel parameter that only
bounds the recursion depth; the fuel chosen for the public entry points is
proved sufficient on the inputs the Go code reaches, so on those inputs
the embedding computes exactly what the Go code computes.
-/

namespace Goodstein

/-- A hereditary base-b decomposition: the list of its monomes, least
significant first.  `cons c b e rest` is the monome `c * b ^ e` followed
by `rest`; `nil` is the decomposition of zero. -/
inductive Decomposition : Type where
  | nil : Decomposition
  | cons (coeff : Int) (base : Int) (exponent : Decomposition) (rest : Decomposition) :
      Decomposition
deriving DecidableEq, Repr

namespace Decomposition

/-- Go `append` on monome slices: concatenation of the two monome lists. -/
def append : Decomposition → Decomposition → Decomposition
  | nil, d => d
  | cons c b e r, d => cons c b e (append r d)

/-- Reversal of the monome list, accumulator version (models the in-place
swap loop reordering `lsms` in `Decrement`). -/
def reverseAux : Decomposition → Decomposition → Decomposition
  | nil, acc => acc
  | cons c b e r, acc => reverseAux r (cons c b e acc)

/-- Reversal of the monome list. -/
def reverse (d : Decomposition) : Decomposition := reverseAux d nil

/-- Number of top-level monomes, `len(d.monomes)`. -/
def length : Decomposition → Nat
  | nil => 0
  | cons _ _ _ r => length r + 1

/-- `Decomposition.IsZero`: true iff the decomposition has no monome. -/
def IsZero : Decomposition → Bool
  | nil => true
  | cons _ _ _ _ => false

/-- `monome.isOne` applied to the head monome of a one-monome list:
`Decomposition.isOne` returns true iff the decomposition is a single
monome with coefficient 1 and zero exponent. -/
def isOne : Decomposition → Bool
  | cons c _ e nil => c = 1 && e.IsZero
  | _ => false

/-- `copyDecomposition` / `copyMonome`: deep copy of the decomposition.
On this pure representation it is the identity (`copyDecomposition_eq`). -/
def copyDecomposition : Decomposition → Decomposition
  | nil => nil
  | cons c b e r => cons c b (copyDecomposition e) (copyDecomposition r)

/-- `Decomposition.clean`: drops every monome whose coefficient is zero
(`monome.isZero`) and recursively cleans the exponents of the monomes it
keeps. -/
def clean : Decomposition → Decomposition
  | nil => nil
  | cons c b e r => if c = 0 then clean r else cons c b (clean e) (clean r)

/-- `Decomposition.Eval`: value of the decomposition, the sum of
`monome.eval` over the monomes.  `monome.eval` computes
`coeff * Exp(base, exponent.Eval())` with `big.Int.Exp`, which returns 1
when the exponent is not positive; hence the guard on the sign of the
evaluated exponent. -/
def Eval : Decomposition → Int
  | nil => 0
  | cons c b e rest => c * (if 0 ≤ Eval e then b ^ (Eval e).toNat else 1) + Eval rest

/-- `monome.eval` for a monome with the given fields. -/
def monomeEval (c b : Int) (e : Decomposition) : Int :=
  c * (if 0 ≤ Eval e then b ^ (Eval e).toNat else 1)

/-- `Decomposition.IncrementBase`: a new decomposition with every monome's
base increased by one, the exponents incremented recursively. -/
def IncrementBase : Decomposition → Decomposition
  | nil => nil
  | cons c b e r => cons c (b + 1) (IncrementBase e) (IncrementBase r)

mutual

/-- `Decomposition.Decrement`, fuel version.  For a non-zero decomposition
the Go code copies the input, decreases the least significant coefficient
by one, prepends the filler monomes collected by the borrow loop
(`decrementLsms`, in reverse generation order) and cleans the result.
`copyDecomposition` is the identity here (see `copyDecomposition_eq`), so
the copy of the tail is written directly.  The fuel only bounds the depth
of the borrow recursion; `DecrementFuel_spec` shows the fuel used by
`Decrement` suffices on well-formed inputs (on malformed inputs the Go
loop itself diverges). -/
def DecrementFuel : Nat → Decomposition → Decomposition
  | _, nil => nil
  | 0, cons _ _ _ _ => nil
  | f + 1, cons c b e rest =>
      clean (append (reverse (decrementLsms f b e)) (cons (c - 1) b e rest))

/-- The borrow loop of `Decrement`: starting from the least significant
monome's exponent, while the exponent is not zero, decrement it and emit a
filler monome with coefficient `base - 1`, the same base, and a copy of
the decremented exponent.  Monomes are listed in generation order (the Go
code reverses them afterwards). -/
def decrementLsms : Nat → Int → Decomposition → Decomposition
  | 0, _, _ => nil
  | f + 1, b, exp =>
      if exp.IsZero then nil
      else
        cons (b - 1) b (copyDecomposition (DecrementFuel f exp))
          (decrementLsms f b (DecrementFuel f exp))

end

/-- `Decomposition.Decrement`: symbolic decrement.  Zero maps to zero; the
fuel `2 * value + 1` is sufficient for every well-formed input
(`DecrementFuel_spec`). -/
def Decrement (d : Decomposition) : Decomposition :=
  DecrementFuel (2 * (Eval d).toNat + 1) d

/-- The strings of the monomes of `d` in storage order (least significant
first); the Go code writes them out reversed and joined with " + ".  The
head element is `monome.string` inlined (the two Go functions
`monome.string` and `Decomposition.string` are mutually recursive; they
are fused here so that the recursion stays structural): a zero monome
renders as "0"; a zero exponent leaves just the coefficient; an exponent
equal to one leaves `coeff times base` (just `base` when the coefficient
is 1); otherwise `base ^ <group><exponent rendered recursively><group>`,
prefixed with `coeff times` unless the coefficient is 1.  Note that
`monome.string` reassigns `times = " " + times + " "` before the
recursive call on the exponent, so the exponent's decomposition receives
the padded separator `t`, not the original `times`: nested multiplication
separators gain one extra space on each side per nesting level. -/
def stringList (times leftGroup rightGroup : String) : Decomposition → List String
  | nil => []
  | cons c b e r =>
      (if c = 0 then "0"
       else
         let strCoeff := toString c
         let strBase := toString b
         let t := " " ++ times ++ " "
         if e.IsZero then strCoeff
         else if e.isOne then (if c = 1 then strBase else strCoeff ++ t ++ strBase)
         else
           let result := strBase ++ " ^ " ++ leftGroup ++
             (if e.IsZero then "0"
              else String.intercalate " + " (stringList t leftGroup rightGroup e).reverse) ++
             rightGroup
           if c = 1 then result else strCoeff ++ t ++ result)
      :: stringList times leftGroup rightGroup r

/-- `Decomposition.string`: the monomes rendered most significant first,
joined with " + "; the empty decomposition renders as "0". -/
def stringCore (d : Decomposition) (times leftGroup rightGroup : String) : String :=
  if d.IsZero then "0"
  else String.intercalate " + " (stringList times leftGroup rightGroup d).reverse

/-- `Decomposition.String`: plain renderer, `d.string("*", "(", ")")`. -/
def StringRepr (d : Decomposition) : String := stringCore d "*" "(" ")"

/-- `Decomposition.LaTeX`: the Go source is `d.string("\times", "{", "}")`.
The Go string literal `"\times"` contains the escape sequence `\t`, so the
multiplication symbol actually passed is a TAB character followed by
`imes` (written `\x09imes` here); the grouping symbols are the two braces
(written `\x7b` and `\x7d` here). -/
def LaTeX (d : Decomposition) : String := stringCore d "\x09imes" "\x7b" "\x7d"

end Decomposition

/-- `recDecompose`, fuel version: emits the base-`b` digits of `n` as
monomes, least significant first, the place index `k` recursively
decomposed in the same base as the exponent.  The fuel only bounds the
recursion depth; `recDecompose` below instantiates it with a provably
sufficient amount (`recDecomposeF_spec`), so it computes exactly the Go
function (which diverges only for `b < 2`, never reached from `New`). -/
def recDecomposeF : Nat → Nat → Nat → Nat → Decomposition
  | 0, _, _, _ => .nil
  | fuel + 1, b, n, k =>
      if n = 0 then .nil
      else
        .cons ((n % b : Nat) : Int) ((b : Nat) : Int) (recDecomposeF fuel b k 0)
          (recDecomposeF fuel b (n / b) (k + 1))

/-- `recDecompose(b, n, k)` with sufficient fuel.  `New` only calls it
with `b ≥ 2` and on such inputs the fuel `(n + k + 1)^2 + n` is enough
(`recDecomposeF_spec`). -/
def recDecompose (b n k : Nat) : Decomposition :=
  recDecomposeF ((n + k + 1) ^ 2 + n) b n k

/-- `New(b, n)`: the hereditary base-`b` decomposition of `n`, or an error
for negative `n` (checked first) or a base below 2. -/
def New (b n : Int) : Except String Decomposition :=
  if n < 0 then Except.error "n must be non negative"
  else if b < 2 then Except.error "base must be at least 2"
  else Except.ok (Decomposition.clean (recDecompose b.toNat n.toNat 0))

/-! Observers and invariants.  These are not functions of the Go source:
they are the spec-side predicates needed to state the claims.  -/

namespace Decomposition

/-- The section-3 normal-form invariants of the spec, at every nesting
depth: every monome has a non-zero, non-negative coefficient (so `0 < c`)
that is smaller than its own base (which forces `base ≥ 2`). -/
def WellFormed : Decomposition → Bool
  | nil => true
  | cons c b e r => 0 < c && c < b && WellFormed e && WellFormed r

/-- Relaxation of `WellFormed` that tolerates zero coefficients: what the
raw output of `recDecompose` satisfies before `clean`, and what the
decremented list satisfies before the final `clean` of `Decrement`. -/
def PreWellFormed : Decomposition → Bool
  | nil => true
  | cons c b e r => 0 ≤ c && c < b && PreWellFormed e && PreWellFormed r

/-- Shape-and-coefficients observer: for every monome in storage
(preorder) order, its coefficient and the number of monomes of its
exponent.  Together with `allBases` this determines the whole tree. -/
def skeleton : Decomposition → List (Int × Nat)
  | nil => []
  | cons c _ e r => (c, e.length) :: (skeleton e ++ skeleton r)

/-- All base fields of the tree, in storage (preorder) order. -/
def allBases : Decomposition → List Int
  | nil => []
  | cons _ b e r => b :: (allBases e ++ allBases r)

/-! Basic lemmas about the embedded operations. -/

theorem copyDecomposition_eq (d : Decomposition) : copyDecomposition d = d := by
  induction d with
  | nil => rfl
  | cons c b e r ihe ihr => simp [copyDecomposition, ihe, ihr]

theorem wf_cons_iff (c b : Int) (e r : Decomposition) :
    WellFormed (cons c b e r) = true ↔
      0 < c ∧ c < b ∧ WellFormed e = true ∧ WellFormed r = true := by
  simp [WellFormed, Bool.and_eq_true, and_assoc]

theorem pre_cons_iff (c b : Int) (e r : Decomposition) :
    PreWellFormed (cons c b e r) = true ↔
      0 ≤ c ∧ c < b ∧ PreWellFormed e = true ∧ PreWellFormed r = true := by
  simp [PreWellFormed, Bool.and_eq_true, and_assoc]

theorem wf_pre {d : Decomposition} (h : WellFormed d = true) : PreWellFormed d = true := by
  induction d with
  | nil => rfl
  | cons c b e r ihe ihr =>
    rw [wf_cons_iff] at h
    rw [pre_cons_iff]
    exact ⟨le_of_lt h.1, h.2.1, ihe h.2.2.1, ihr h.2.2.2⟩

theorem eval_append (x y : Decomposition) : Eval (append x y) = Eval x + Eval y := by
  induction x with
  | nil => simp [append, Eval]
  | cons c b e r ihe ihr => simp [append, Eval, ihr]; ring

theorem eval_reverseAux (x acc : Decomposition) :
    Eval (reverseAux x acc) = Eval x + Eval acc := by
  induction x generalizing acc with
  | nil => simp [reverseAux, Eval]
  | cons c b e r ihe ihr => simp [reverseAux, Eval, ihr]; ring

theorem eval_reverse (x : Decomposition) : Eval (reverse x) = Eval x := by
  simp [reverse, eval_reverseAux, Eval]

theorem pre_append {x y : Decomposition} (hx : PreWellFormed x = true)
    (hy : PreWellFormed y = true) : PreWellFormed (append x y) = true := by
  induction x with
  | nil => simpa [append] using hy
  | cons c b e r ihe ihr =>
    rw [pre_cons_iff] at hx
    simp only [append]
    rw [pre_cons_iff]
    exact ⟨hx.1, hx.2.1, hx.2.2.1, ihr hx.2.2.2⟩

theorem pre_reverseAux {x acc : Decomposition} (hx : PreWellFormed x = true)
    (hacc : PreWellFormed acc = true) : PreWellFormed (reverseAux x acc) = true := by
  induction x generalizing acc with
  | nil => simpa [reverseAux] using hacc
  | cons c b e r ihe ihr =>
    rw [pre_cons_iff] at hx
    simp only [reverseAux]
    exact ihr hx.2.2.2 (by rw [pre_cons_iff]; exact ⟨hx.1, hx.2.1, hx.2.2.1, hacc⟩)

theorem pre_reverse {x : Decomposition} (hx : PreWellFormed x = true) :
    PreWellFormed (reverse x) = true :=
  pre_reverseAux hx rfl

theorem eval_nonneg {d : Decomposition} (h : WellFormed d = true) : 0 ≤ Eval d := by
  induction d with
  | nil => simp [Eval]
  | cons c b e r ihe ihr =>
    rw [wf_cons_iff] at h
    obtain ⟨hc, hcb, he, hr⟩ := h
    have hb : (0 : Int) < b := lt_trans hc hcb
    simp only [Eval, ihe he, if_pos]
    have hp : (0 : Int) < b ^ (Eval e).toNat := pow_pos hb _
    have := mul_nonneg (le_of_lt hc) (le_of_lt hp)
    have := ihr hr
    omega

theorem eval_pos {d : Decomposition} (h : WellFormed d = true) (hz : d.IsZero = false) :
    1 ≤ Eval d := by
  match d with
  | cons c b e r =>
    rw [wf_cons_iff] at h
    obtain ⟨hc, hcb, he, hr⟩ := h
    have hb : (0 : Int) < b := lt_trans hc hcb
    simp only [Eval, eval_nonneg he, if_pos]
    have hp : (0 : Int) < b ^ (Eval e).toNat := pow_pos hb _
    have hcp : (0 : Int) < c * b ^ (Eval e).toNat := mul_pos hc hp
    have := eval_nonneg hr
    omega

end Decomposition

end Goodstein

namespace Goodstein

namespace Decomposition

theorem eval_clean (d : Decomposition) : Eval (clean d) = Eval d := by
  induction d with
  | nil => rfl
  | cons c b e r ihe ihr =>
    by_cases hc : c = 0
    · simp [clean, hc, Eval, ihr]
    · simp [clean, hc, Eval, ihe, ihr]

theorem clean_clean (d : Decomposition) : clean (clean d) = clean d := by
  induction d with
  | nil => rfl
  | cons c b e r ihe ihr =>
    by_cases hc : c = 0
    · simp [clean, hc, ihr]
    · simp [clean, hc, ihe, ihr]

theorem wellFormed_clean {d : Decomposition} (h : PreWellFormed d = true) :
    WellFormed (clean d) = true := by
  induction d with
  | nil => rfl
  | cons c b e r ihe ihr =>
    rw [pre_cons_iff] at h
    by_cases hc : c = 0
    · simpa [clean, hc] using ihr h.2.2.2
    · simp only [clean, if_neg hc]
      rw [wf_cons_iff]
      exact ⟨by omega, h.2.1, ihe h.2.2.1, ihr h.2.2.2⟩

theorem clean_eq_self {d : Decomposition} (h : WellFormed d = true) : clean d = d := by
  induction d with
  | nil => rfl
  | cons c b e r ihe ihr =>
    rw [wf_cons_iff] at h
    simp [clean, show ¬c = 0 by omega, ihe h.2.2.1, ihr h.2.2.2]

theorem eval_zero_imp_nil {d : Decomposition} (h : WellFormed d = true)
    (hz : Eval d = 0) : d = nil := by
  match d with
  | nil => rfl
  | cons c b e r => have := eval_pos h rfl; omega

theorem decrementLsms_nil (f : Nat) (b : Int) : decrementLsms f b nil = nil := by
  cases f with
  | zero => rfl
  | succ f => simp [decrementLsms, IsZero]

theorem decrementFuel_nil (f : Nat) : DecrementFuel f nil = nil := by
  cases f <;> rfl

theorem wf_incrementBase {d : Decomposition} (h : WellFormed d = true) :
    WellFormed (IncrementBase d) = true := by
  induction d with
  | nil => rfl
  | cons c b e r ihe ihr =>
    rw [wf_cons_iff] at h
    simp only [IncrementBase]
    rw [wf_cons_iff]
    exact ⟨h.1, by omega, ihe h.2.2.1, ihr h.2.2.2⟩

theorem length_incrementBase (d : Decomposition) :
    length (IncrementBase d) = length d := by
  induction d with
  | nil => rfl
  | cons c b e r ihe ihr => simp [IncrementBase, length, ihr]

end Decomposition

theorem nat_add_one_le_pow {b : Int} (hb : 2 ≤ b) (E : Nat) : (E : Int) + 1 ≤ b ^ E := by
  have h2 : ((E : Int) + 1) ≤ 2 ^ E := by
    have h := Nat.lt_two_pow E
    have : (E : Int) < (2 : Int) ^ E := by exact_mod_cast h
    linarith
  have hle : (2 : Int) ^ E ≤ b ^ E := pow_le_pow_left₀ (by norm_num) hb E
  linarith

theorem recDecomposeF_eval : ∀ (f b n k : Nat), 2 ≤ b → (n + k + 1) ^ 2 + n ≤ f →
    Decomposition.Eval (recDecomposeF f b n k) = (n : Int) * (b : Int) ^ k := by
  intro f
  induction f with
  | zero =>
    intro b n k hb hf
    have : 0 < (n + k + 1) ^ 2 := by positivity
    omega
  | succ f ih =>
    intro b n k hb hf
    by_cases hn : n = 0
    · simp [recDecomposeF, hn, Decomposition.Eval]
    · have hn1 : 1 ≤ n := Nat.pos_of_ne_zero hn
      have hdiv : n / b < n := Nat.div_lt_self hn1 (by omega)
      have hb1 : (k + 0 + 1) ^ 2 + k ≤ f := by
        have h1 : (k + 2) ^ 2 ≤ (n + k + 1) ^ 2 := Nat.pow_le_pow_left (by omega) 2
        have h2 : (k + 0 + 1) ^ 2 + k + 1 ≤ (k + 2) ^ 2 := by nlinarith
        omega
      have hb2 : (n / b + (k + 1) + 1) ^ 2 + n / b ≤ f := by
        have h1 : (n / b + (k + 1) + 1) ^ 2 ≤ (n + k + 1) ^ 2 :=
          Nat.pow_le_pow_left (by omega) 2
        omega
      have ih1 := ih b k 0 hb hb1
      have ih2 := ih b (n / b) (k + 1) hb hb2
      simp only [recDecomposeF, if_neg hn, Decomposition.Eval, ih2]
      rw [show Decomposition.Eval (recDecomposeF f b k 0) = (k : Int) by
        rw [ih1]; simp]
      rw [if_pos (Int.natCast_nonneg k), Int.toNat_natCast]
      have hcast : ((n % b : Nat) : Int) + (b : Int) * ((n / b : Nat) : Int) = (n : Int) := by
        exact_mod_cast congrArg (Nat.cast : Nat → Int) (Nat.mod_add_div n b)
      rw [pow_succ]
      linear_combination ((b : Int) ^ k) * hcast

theorem recDecomposeF_pre : ∀ (f b n k : Nat), 2 ≤ b →
    Decomposition.PreWellFormed (recDecomposeF f b n k) = true := by
  intro f
  induction f with
  | zero => intro b n k hb; rfl
  | succ f ih =>
    intro b n k hb
    by_cases hn : n = 0
    · simp [recDecomposeF, hn, Decomposition.PreWellFormed]
    · simp only [recDecomposeF, if_neg hn]
      rw [Decomposition.pre_cons_iff]
      refine ⟨Int.natCast_nonneg _, ?_, ih b k 0 hb, ih b (n / b) (k + 1) hb⟩
      exact_mod_cast Nat.mod_lt n (by omega)

end Goodstein

namespace Goodstein

namespace Decomposition

/-- Main property of the fuel-based decrement: on a well-formed input and
with fuel at least `2 * value + 1`, the result is well-formed and its
value is one less than the input's value (zero maps to zero). -/
theorem DecrementFuel_spec :
    ∀ (N : Nat) (d : Decomposition), WellFormed d = true → (Eval d).toNat ≤ N →
      ∀ f : Nat, 2 * (Eval d).toNat + 1 ≤ f →
        WellFormed (DecrementFuel f d) = true ∧
        Eval (DecrementFuel f d) = Eval d - (if d.IsZero then 0 else 1) := by
  intro N
  induction N using Nat.strong_induction_on with
  | _ N ih =>
  intro d hwf hN f hf
  cases d with
  | nil =>
    rw [decrementFuel_nil]
    exact ⟨rfl, by simp [Eval, IsZero]⟩
  | cons c b e rest =>
    rw [wf_cons_iff] at hwf
    obtain ⟨hc, hcb, hwe, hwr⟩ := hwf
    have hwd : WellFormed (cons c b e rest) = true := by
      rw [wf_cons_iff]; exact ⟨hc, hcb, hwe, hwr⟩
    set E := (Eval e).toNat with hE
    have hpowE : (E : Int) + 1 ≤ b ^ E := nat_add_one_le_pow (by omega) E
    have hdval : Eval (cons c b e rest) = c * b ^ E + Eval rest := by
      simp only [Eval]
      rw [if_pos (eval_nonneg hwe)]
    have hbE : (E : Int) + 1 ≤ Eval (cons c b e rest) := by
      have h1 : (0 : Int) < b ^ E := pow_pos (by omega) E
      have h2 : b ^ E ≤ c * b ^ E := le_mul_of_one_le_left h1.le (by omega)
      have h3 : (0 : Int) ≤ Eval rest := eval_nonneg hwr
      linarith
    have hd0 : (0 : Int) ≤ Eval (cons c b e rest) := eval_nonneg hwd
    have hEVd : E + 1 ≤ (Eval (cons c b e rest)).toNat := by omega
    obtain ⟨f', rfl⟩ : ∃ f', f = f' + 1 := ⟨f - 1, by omega⟩
    have loop : ∀ v, ∀ exp : Decomposition, WellFormed exp = true → (Eval exp).toNat = v →
        v ≤ E → ∀ g : Nat, 2 * v + 2 ≤ g →
        WellFormed (decrementLsms g b exp) = true ∧
        Eval (decrementLsms g b exp) = b ^ v - 1 := by
      intro v
      induction v using Nat.strong_induction_on with
      | _ v ihv =>
      intro exp hwexp hvexp hvE g hg
      rcases Nat.eq_zero_or_pos v with hv0 | hvpos
      · subst hv0
        have hexp0 : Eval exp = 0 := by
          have := eval_nonneg hwexp; omega
        rw [eval_zero_imp_nil hwexp hexp0, decrementLsms_nil]
        exact ⟨rfl, by simp [Eval]⟩
      · have hexp_pos : 1 ≤ Eval exp := by have := eval_nonneg hwexp; omega
        have hexp_ne : exp.IsZero = false := by
          cases exp with
          | nil => simp [Eval] at hexp_pos
          | cons _ _ _ _ => rfl
        obtain ⟨g', rfl⟩ : ∃ g', g = g' + 1 := ⟨g - 1, by omega⟩
        have hvN : v < N := by omega
        have hdec := ih v hvN exp hwexp (le_of_eq hvexp) g' (by omega)
        obtain ⟨hwdec, hedec⟩ := hdec
        rw [hexp_ne] at hedec
        simp only [Bool.false_eq_true, if_false] at hedec
        have hdecval : (Eval (DecrementFuel g' exp)).toNat = v - 1 := by omega
        have hrest := ihv (v - 1) (by omega) (DecrementFuel g' exp) hwdec hdecval
          (by omega) g' (by omega)
        obtain ⟨hwrest, herest⟩ := hrest
        constructor
        · simp only [decrementLsms, hexp_ne, Bool.false_eq_true, if_false,
            copyDecomposition_eq]
          rw [wf_cons_iff]
          exact ⟨by omega, by omega, hwdec, hwrest⟩
        · simp only [decrementLsms, hexp_ne, Bool.false_eq_true, if_false,
            copyDecomposition_eq, Eval]
          rw [if_pos (by omega : (0 : Int) ≤ Eval (DecrementFuel g' exp)), hdecval, herest]
          have hpv : b ^ v = b ^ (v - 1) * b := by
            rw [← pow_succ]
            congr 1
            omega
          rw [hpv]
          ring
    have hloop := loop E e hwe rfl (le_refl E) f' (by omega)
    obtain ⟨hwlsms, helsms⟩ := hloop
    constructor
    · simp only [DecrementFuel]
      apply wellFormed_clean
      apply pre_append (pre_reverse (wf_pre hwlsms))
      rw [pre_cons_iff]
      exact ⟨by omega, by omega, wf_pre hwe, wf_pre hwr⟩
    · simp only [DecrementFuel, eval_clean, eval_append, eval_reverse, helsms, IsZero,
        Bool.false_eq_true, if_false]
      have htail : Eval (cons (c - 1) b e rest) = (c - 1) * b ^ E + Eval rest := by
        simp only [Eval]
        rw [if_pos (eval_nonneg hwe)]
      rw [htail, hdval]
      ring

/-- Decrementing a well-formed decomposition is well-formed and decreases
the value by one (zero stays zero). -/
theorem Decrement_spec (d : Decomposition) (h : WellFormed d = true) :
    WellFormed (Decrement d) = true ∧
    Eval (Decrement d) = Eval d - (if d.IsZero then 0 else 1) :=
  DecrementFuel_spec (Eval d).toNat d h (le_refl _) (2 * (Eval d).toNat + 1) (le_refl _)

end Decomposition

end Goodstein

namespace Goodstein

open Decomposition

/-! The claims. -/

/-- C1: For every well-formed non-zero Decomposition d (invariants of
section 3 satisfied), evaluate(decrement(d)) equals evaluate(d) - 1. -/
theorem decrement_decreases_value (d : Decomposition) (hwf : WellFormed d = true)
    (hnz : d.IsZero = false) : Eval (Decrement d) = Eval d - 1 := by
  have h := (Decrement_spec d hwf).2
  rw [hnz] at h
  simpa using h

/-- Witness for C1, the "in particular" part of the claim:
`decompose(2, 2)` is `2^1` and its decrement evaluates to 1. -/
theorem decrement_decreases_value_witness :
    New 2 2 = Except.ok (Decomposition.cons 1 2 (Decomposition.cons 1 2 .nil .nil) .nil) ∧
    Eval (Decrement (Decomposition.cons 1 2 (Decomposition.cons 1 2 .nil .nil) .nil)) = 1 :=
  ⟨by rfl, by
    rw [decrement_decreases_value _ (by decide) (by decide)]
    rfl⟩

/-- C2: for all base >= 2 and n >= 0, evaluating the decomposition
returned by decompose(base, n) yields exactly n. -/
theorem new_eval_roundtrip (b n : Int) (hb : 2 ≤ b) (hn : 0 ≤ n) :
    ∃ d, New b n = Except.ok d ∧ Eval d = n := by
  refine ⟨Decomposition.clean (recDecompose b.toNat n.toNat 0), ?_, ?_⟩
  · simp only [New, if_neg (by omega : ¬n < 0), if_neg (by omega : ¬b < 2)]
  · rw [eval_clean]
    unfold recDecompose
    rw [recDecomposeF_eval ((n.toNat + 0 + 1) ^ 2 + n.toNat) b.toNat n.toNat 0
      (by omega) (le_refl _)]
    rw [pow_zero, mul_one, Int.toNat_of_nonneg hn]

/-- Witness for C2 at base 2, n = 10. -/
theorem new_eval_roundtrip_witness :
    (2 : Int) ≤ 2 ∧ (0 : Int) ≤ 10 ∧ ∃ d, New 2 10 = Except.ok d ∧ Eval d = 10 :=
  ⟨by norm_num, by norm_num, new_eval_roundtrip 2 10 (by norm_num) (by norm_num)⟩

/-- Counterexample to C3: the decomposition `2 * 3 ^ 1` (that is,
`decompose(3, 6)`) is well formed, non-zero, and its least significant
monome has coefficient 2 >= 2, yet `Decrement` does not merely decrease
that coefficient: it also inserts the filler monome `2 * 3 ^ 0` because
the exponent of the least significant monome is not zero (the code
inserts fillers whenever that exponent is non-zero, regardless of the
coefficient). -/
theorem decrement_no_fillers_counterexample :
    WellFormed (Decomposition.cons 2 3 (.cons 1 3 .nil .nil) .nil) = true ∧
    (Decomposition.cons 2 3 (.cons 1 3 .nil .nil) .nil).IsZero = false ∧
    Decrement (Decomposition.cons 2 3 (.cons 1 3 .nil .nil) .nil) ≠
      Decomposition.cons 1 3 (.cons 1 3 .nil .nil) .nil ∧
    Decrement (Decomposition.cons 2 3 (.cons 1 3 .nil .nil) .nil) =
      Decomposition.cons 2 3 .nil (.cons 1 3 (.cons 1 3 .nil .nil) .nil) := by
  decide

/-- C3 as amended: the decrement algorithm inserts the filler monomes
exactly when the least significant monome's exponent is non-zero,
regardless of the coefficient.  Hence, for well-formed non-zero d whose
least significant monome has coefficient >= 2: if that monome's exponent
is zero, decrement(d) is d with the coefficient decreased by one and no
fillers; if the exponent is non-zero, the result is never just d with the
coefficient decreased. -/
theorem decrement_head_coefficient (c b : Int) (e rest : Decomposition)
    (hwf : WellFormed (Decomposition.cons c b e rest) = true) (hc2 : 2 ≤ c) :
    (e.IsZero = true → Decrement (Decomposition.cons c b e rest) =
      Decomposition.cons (c - 1) b e rest) ∧
    (e.IsZero = false → Decrement (Decomposition.cons c b e rest) ≠
      Decomposition.cons (c - 1) b e rest) := by
  rw [wf_cons_iff] at hwf
  obtain ⟨hc, hcb, hwe, hwr⟩ := hwf
  have hwd : WellFormed (Decomposition.cons c b e rest) = true := by
    rw [wf_cons_iff]; exact ⟨hc, hcb, hwe, hwr⟩
  constructor
  · intro he
    have hen : e = Decomposition.nil := by
      cases e with
      | nil => rfl
      | cons _ _ _ _ => simp [IsZero] at he
    subst hen
    simp only [Decrement, DecrementFuel, decrementLsms_nil]
    simp only [reverse, reverseAux, append, clean, show ¬c - 1 = 0 by omega, if_neg]
    rw [clean_eq_self hwr]
    simp
  · intro he hcontra
    have h1 : Eval (Decrement (Decomposition.cons c b e rest)) =
        Eval (Decomposition.cons c b e rest) - 1 := by
      have h := (Decrement_spec _ hwd).2
      simpa [IsZero] using h
    have hE1 : 1 ≤ Eval e := eval_pos hwe he
    set E := (Eval e).toNat with hE
    have hEpos : 1 ≤ E := by omega
    have hpow : (2 : Int) ≤ b ^ E := by
      have hb1 : b ^ 1 ≤ b ^ E := pow_le_pow_right₀ (by omega) hEpos
      rw [pow_one] at hb1
      omega
    have h2 : Eval (Decomposition.cons (c - 1) b e rest) =
        (c - 1) * b ^ E + Eval rest := by
      simp only [Eval]
      rw [if_pos (eval_nonneg hwe)]
    have h3 : Eval (Decomposition.cons c b e rest) = c * b ^ E + Eval rest := by
      simp only [Eval]
      rw [if_pos (eval_nonneg hwe)]
    rw [hcontra, h2, h3] at h1
    have : b ^ E = 1 := by linarith
    omega

/-- Witness for the amended C3: decrementing `2 * 3 ^ 0` (the number 2 in
base 3) just lowers the coefficient. -/
theorem decrement_head_coefficient_witness :
    WellFormed (Decomposition.cons 2 3 .nil .nil) = true ∧
    Decrement (Decomposition.cons 2 3 .nil .nil) = Decomposition.cons 1 3 .nil .nil := by
  refine ⟨by decide, ?_⟩
  have h := (decrement_head_coefficient 2 3 .nil .nil (by decide) (by norm_num)).1 rfl
  exact h.trans (by decide)

/-- C4: every decomposition produced by a public operation (decompose on
valid arguments, incrementBase, decrement) satisfies, at every nesting
depth, the invariants: no monome has coefficient 0 and no monome has a
coefficient at or above its own base; incrementBase and decrement
preserve the invariants. -/
theorem invariants_public_ops :
    (∀ b n : Int, 2 ≤ b → 0 ≤ n → ∀ d, New b n = Except.ok d → WellFormed d = true) ∧
    (∀ d, WellFormed d = true → WellFormed (IncrementBase d) = true) ∧
    (∀ d, WellFormed d = true → WellFormed (Decrement d) = true) := by
  refine ⟨?_, fun d h => wf_incrementBase h, fun d h => (Decrement_spec d h).1⟩
  intro b n hb hn d hd
  simp only [New, if_neg (by omega : ¬n < 0), if_neg (by omega : ¬b < 2),
    Except.ok.injEq] at hd
  rw [← hd]
  exact wellFormed_clean (recDecomposeF_pre _ _ _ _ (by omega))

/-- Witness for C4 at concrete inputs. -/
theorem invariants_public_ops_witness :
    WellFormed (IncrementBase (Decomposition.cons 1 2 (.cons 1 2 .nil .nil) .nil)) = true ∧
    WellFormed (Decrement (Decomposition.cons 2 3 .nil .nil)) = true :=
  ⟨invariants_public_ops.2.1 _ (by decide), invariants_public_ops.2.2 _ (by decide)⟩

/-- C5: decrementing the zero decomposition returns the zero
decomposition: for every base >= 2, decompose(base, 0).decrement() is
zero. -/
theorem decrement_zero_noop (b : Int) (hb : 2 ≤ b) :
    ∃ d, New b 0 = Except.ok d ∧ (Decrement d).IsZero = true := by
  have h : Decomposition.clean (recDecompose b.toNat 0 0) = Decomposition.nil := rfl
  refine ⟨Decomposition.clean (recDecompose b.toNat 0 0), ?_, ?_⟩
  · simp only [New, if_neg (by omega : ¬(0 : Int) < 0), if_neg (by omega : ¬b < 2)]
    rfl
  · rw [h]
    rfl

/-- Witness for C5 at base 2. -/
theorem decrement_zero_noop_witness :
    (2 : Int) ≤ 2 ∧ ∃ d, New 2 0 = Except.ok d ∧ (Decrement d).IsZero = true :=
  ⟨by norm_num, decrement_zero_noop 2 (by norm_num)⟩

/-- C7: incrementBase returns a decomposition identical in shape to its
input (same monomes in the same order at every level, same coefficients,
same exponent structure) in which every base field, at every nesting
depth, is increased by exactly one: the skeleton (coefficients and
exponent arities in preorder) is unchanged and the preorder list of bases
is mapped by +1. -/
theorem incrementBase_shape (d : Decomposition) :
    skeleton (IncrementBase d) = skeleton d ∧
    allBases (IncrementBase d) = (allBases d).map (fun x => x + 1) := by
  induction d with
  | nil => simp [IncrementBase, skeleton, allBases]
  | cons c b e r ihe ihr =>
    simp [IncrementBase, skeleton, allBases, length_incrementBase,
      ihe.1, ihe.2, ihr.1, ihr.2]

/-- C8, divergence witness: the renderers do not produce the claimed
multiplication texts.  First, the Go literal `"\times"` in `LaTeX`
contains the escape `\t`, so the LaTeX separator is a TAB followed by
`imes`: rendering `2 * 3 ^ 1` (i.e. `decompose(3, 6)`) yields
`"2 <TAB>imes 3"`, not `"2 \times 3"`.  Second, `monome.string` passes
the padded separator into the recursion on the exponent, so nested
multiplications accumulate spaces in both styles: the plain rendering of
`3 ^ (2 * 3)` (i.e. `decompose(3, 729)`) is `"3 ^ (2  *  3)"` with two
spaces around the `*`, not `"3 ^ (2 * 3)"`. -/
theorem latex_times_divergence :
    LaTeX (Decomposition.cons 2 3 (.cons 1 3 .nil .nil) .nil) = "2 \x09imes 3" ∧
    LaTeX (Decomposition.cons 2 3 (.cons 1 3 .nil .nil) .nil) ≠ "2 \\times 3" ∧
    New 3 6 = Except.ok (Decomposition.cons 2 3 (.cons 1 3 .nil .nil) .nil) ∧
    StringRepr (Decomposition.cons 1 3 (.cons 2 3 (.cons 1 3 .nil .nil) .nil) .nil) =
      "3 ^ (2  *  3)" ∧
    StringRepr (Decomposition.cons 1 3 (.cons 2 3 (.cons 1 3 .nil .nil) .nil) .nil) ≠
      "3 ^ (2 * 3)" ∧
    New 3 729 =
      Except.ok (Decomposition.cons 1 3 (.cons 2 3 (.cons 1 3 .nil .nil) .nil) .nil) :=
  ⟨by rfl, by decide, by rfl, by rfl, by decide, by rfl⟩

/-- C9: decompose(base, n) fails exactly when base < 2 or n < 0, the
error message identifies the violated constraint, and on valid arguments
it returns a normalized (clean-fixed) decomposition and no error. -/
theorem new_validation :
    (∀ b n : Int, n < 0 → New b n = Except.error "n must be non negative") ∧
    (∀ b n : Int, 0 ≤ n → b < 2 → New b n = Except.error "base must be at least 2") ∧
    (∀ b n : Int, 0 ≤ n → 2 ≤ b →
      ∃ d, New b n = Except.ok d ∧ Decomposition.clean d = d) := by
  refine ⟨?_, ?_, ?_⟩
  · intro b n hn
    simp [New, if_pos hn]
  · intro b n hn hb
    simp [New, if_neg (by omega : ¬n < 0), if_pos hb]
  · intro b n hn hb
    refine ⟨Decomposition.clean (recDecompose b.toNat n.toNat 0), ?_, clean_clean _⟩
    simp only [New, if_neg (by omega : ¬n < 0), if_neg (by omega : ¬b < 2)]

/-- Witness for C9 at concrete arguments. -/
theorem new_validation_witness :
    New 5 (-1) = Except.error "n must be non negative" ∧
    New 1 0 = Except.error "base must be at least 2" ∧
    ∃ d, New 2 7 = Except.ok d ∧ Decomposition.clean d = d :=
  ⟨new_validation.1 5 (-1) (by norm_num),
   new_validation.2.1 1 0 (by norm_num) (by norm_num),
   new_validation.2.2 2 7 (by norm_num) (by norm_num)⟩

/-- C10: when both constraints are violated (n < 0 and base < 2), the
negative-n check takes precedence: the error is the
"n must be non negative" one. -/
theorem new_negative_n_precedence (b n : Int) (hn : n < 0) (h' : b < 2) :
    New b n = Except.error "n must be non negative" := by
  simp [New, if_pos hn]

/-- Witness for C10 at base 1, n = -1. -/
theorem new_negative_n_precedence_witness :
    (-1 : Int) < 0 ∧ (1 : Int) < 2 ∧
    New 1 (-1) = Except.error "n must be non negative" :=
  ⟨by norm_num, by norm_num, new_negative_n_precedence 1 (-1) (by norm_num) (by norm_num)⟩

end Goodstein
